import Mathlib

/-!
Verification of the glob-style path matcher `matchglob` from
`domdf_python_tools/paths.py`.

The embedding mirrors the Python source:

* `purePathParts` models POSIX `pathlib.PurePath(s).parts` (and equally
  `PathPlus(s).parts`, which inherits pathlib's parsing): split on `/`,
  drop empty components and single dots, keep a root component for
  absolute paths (`//` kept as its own root, as pathlib does).
* `fnmatchcase` models the standard library `fnmatch.fnmatchcase`,
  following `fnmatch.translate`: a segment pattern is compiled to a token
  list (`*`, `?`, character classes, literals; a `[` with no closing `]`
  falls back to a literal `[`) and matched against the whole segment.
* `loopGo` models the `while True:` loop of `matchglob` operating on the
  two deques.  A raised `IndexError` (popping or indexing an empty deque)
  is modelled as `Option.none`; a normal `return` as `some true` /
  `some false`.  The second component counts loop-body executions (outer
  `while True` iterations plus inner `while` iterations), used for the
  resource-bound claim.  The `Nat` fuel argument only drives structural
  recursion; `matchglob` supplies `pp.length`, which is enough because
  every iteration consumes at least one pattern segment.
* `matchglobR` models the whole function body including the
  `pattern_parts[-1]` check before the loop.
-/

/-- Tokens of a compiled per-segment glob pattern, mirroring the regex
elements produced by `fnmatch.translate`. -/
inductive Tok where
  | star : Tok
  | que : Tok
  | cls : Bool → List Char → Tok
  | lit : Char → Tok
deriving DecidableEq

/-- Scan up to the first `]`, returning the characters before it and the
remainder after it; `none` if there is no `]`. -/
def findClose : List Char → Option (List Char × List Char)
  | [] => none
  | c :: rest =>
    if c = ']' then some ([], rest)
    else (findClose rest).map (fun p => (c :: p.1, p.2))

/-- Modelled from `fnmatch.translate`: parse a character class given the
characters following `[`.  An optional leading `!` negates; a `]` directly
after that is a literal member; the class runs to the next `]`.  Returns
`none` when the class is unterminated (the caller then treats `[` as a
literal character). -/
def scanClass (ps : List Char) : Option (Bool × List Char × List Char) :=
  let p := match ps with
    | '!' :: rest => (true, rest)
    | _ => (false, ps)
  match p.2 with
  | ']' :: ps2 => (findClose ps2).map (fun q => (p.1, ']' :: q.1, q.2))
  | _ => (findClose p.2).map (fun q => (p.1, q.1, q.2))

/-- Membership of a character in a character class body; `a-b` is a range,
a `-` that cannot form a range is a literal member. -/
def classMatch : List Char → Char → Bool
  | [], _ => false
  | a :: '-' :: b :: rest, c => (decide (a ≤ c) && decide (c ≤ b)) || classMatch rest c
  | a :: rest, c => (a == c) || classMatch rest c

/-- Compile a per-segment glob pattern to tokens, following
`fnmatch.translate`.  Fuel-driven structural recursion; `translateP`
supplies the list length, which suffices since each step consumes at
least one character. -/
def transGo : Nat → List Char → List Tok
  | _, [] => []
  | 0, _ :: _ => []
  | fuel + 1, c :: ps =>
    if c = '*' then Tok.star :: transGo fuel ps
    else if c = '?' then Tok.que :: transGo fuel ps
    else if c = '[' then
      match scanClass ps with
      | some (neg, items, rest) => Tok.cls neg items :: transGo fuel rest
      | none => Tok.lit '[' :: transGo fuel ps
    else Tok.lit c :: transGo fuel ps

/-- Compile a per-segment glob pattern to tokens. -/
def translateP (l : List Char) : List Tok := transGo l.length l

/-- Match a segment against compiled tokens (full-segment match, as
`fnmatch` anchors its regex).  Fuel-driven; each step decreases
`name.length + toks.length`, so that sum is enough fuel. -/
def tokGo : Nat → List Char → List Tok → Bool
  | _, [], [] => true
  | fuel + 1, [], Tok.star :: ts => tokGo fuel [] ts
  | _ + 1, [], _ :: _ => false
  | _ + 1, _ :: _, [] => false
  | fuel + 1, c :: cs, Tok.star :: ts => tokGo fuel (c :: cs) ts || tokGo fuel cs (Tok.star :: ts)
  | fuel + 1, _ :: cs, Tok.que :: ts => tokGo fuel cs ts
  | fuel + 1, c :: cs, Tok.cls neg items :: ts => (classMatch items c != neg) && tokGo fuel cs ts
  | fuel + 1, c :: cs, Tok.lit a :: ts => (c == a) && tokGo fuel cs ts
  | 0, _, _ => false

/-- Modelled from the standard library `fnmatch.fnmatchcase(name, pat)`:
case-sensitive shell-glob match of a whole segment. -/
def fnmatchcase (name pat : String) : Bool :=
  let toks := translateP pat.data
  tokGo (name.data.length + toks.length) name.data toks

/-- A segment with none of the glob metacharacters `*`, `?`, `[`:
`fnmatch` treats it as a plain literal. -/
def litOnly (cs : List Char) : Prop := ∀ c ∈ cs, c ≠ '*' ∧ c ≠ '?' ∧ c ≠ '['

instance (cs : List Char) : Decidable (litOnly cs) :=
  inferInstanceAs (Decidable (∀ c ∈ cs, _))

/-- Split a character list on `/`, keeping empty components (they are
filtered later, as pathlib collapses spurious slashes). -/
def splitSlashGo : List Char → List Char → List String
  | acc, [] => [String.mk acc.reverse]
  | acc, c :: rest =>
    if c = '/' then String.mk acc.reverse :: splitSlashGo [] rest
    else splitSlashGo (c :: acc) rest

/-- Model of POSIX `pathlib.PurePath(s).parts`: empty components and `.`
components are dropped; an absolute path contributes a root component
(`//` is its own root when the path starts with exactly two slashes). -/
def purePathParts (s : String) : List String :=
  let cs := s.data
  let comps := (splitSlashGo [] cs).filter (fun c => !(c == "" || c == "."))
  if cs.take 2 = ['/', '/'] ∧ cs.take 3 ≠ ['/', '/', '/'] then "//" :: comps
  else if cs.take 1 = ['/'] then "/" :: comps
  else comps

/-- The `while pattern_part == "**": pattern_part = pattern_parts.popleft()`
loop of `matchglob`: pop pattern segments until one is not `**`.
`none` models the `IndexError` when the deque empties first; the second
component counts body executions (including a final raising attempt). -/
def collapseC : List String → Option (String × List String) × Nat
  | [] => (none, 1)
  | q :: rest =>
    if q = "**" then
      let r := collapseC rest
      (r.1, r.2 + 1)
    else (some (q, rest), 1)

/-- The inner `while not fnmatch.fnmatchcase(...)` loop of `matchglob`:
advance through path segments until one matches `q`; `none` models the
`return False` when the path deque empties.  The second component counts
body executions. -/
def skipC (q : String) : List String → Option (List String) × Nat
  | [] => (none, 1)
  | f :: fs =>
    if fnmatchcase f q then (some fs, 1)
    else
      let r := skipC q fs
      (r.1, r.2 + 1)

/-- The `while True:` loop of `matchglob` on (pattern deque, path deque).
First component: `some b` models `return b`, `none` models a raised
`IndexError`.  Second component: number of loop-body executions (outer
plus inner loops).  The fuel only drives the recursion; `pp.length`
suffices because every iteration pops at least one pattern segment. -/
def loopGo : Nat → List String → List String → Option Bool × Nat
  | _, [], fp => if fp.isEmpty then (some true, 1) else (none, 1)
  | 0, _ :: _, _ => (none, 0)
  | fuel + 1, p :: pp, fp =>
    if p = "**" ∧ fp = [] then (some true, 1)
    else
      match fp with
      | [] => (none, 1)
      | f :: fp1 =>
        if p = "**" then
          if pp.isEmpty || fp1.isEmpty then (some true, 1)
          else
            match (collapseC pp).1 with
            | none => (none, 1 + (collapseC pp).2)
            | some (q, pp2) =>
              if fnmatchcase f q then
                let r := loopGo fuel pp2 fp1
                (r.1, 1 + (collapseC pp).2 + r.2)
              else
                match (skipC q fp1).1 with
                | none => (some false, 1 + (collapseC pp).2 + (skipC q fp1).2)
                | some fp2 =>
                  let r := loopGo fuel pp2 fp2
                  (r.1, 1 + (collapseC pp).2 + (skipC q fp1).2 + r.2)
        else if fnmatchcase f p then
          let r := loopGo fuel pp fp1
          (r.1, 1 + r.2)
        else (some false, 1)

/-- Full model of `matchglob(filename, pattern)`: parse both arguments,
apply the `if not pattern_parts[-1]: pattern_parts.pop()` pre-step
(indexing an empty deque raises, modelled as `none` with zero loop
iterations), then run the loop.  First component is the call's outcome,
second the loop-iteration count. -/
def matchglobR (filename pattern : String) : Option Bool × Nat :=
  let pp := purePathParts pattern
  let fp := purePathParts filename
  match pp.getLast? with
  | none => (none, 0)
  | some last =>
    let pp1 := if last = "" then pp.dropLast else pp
    loopGo pp1.length pp1 fp

/-- Outcome of `matchglob`: `some b` for a returned boolean, `none` for a
raised exception. -/
def matchglob (filename pattern : String) : Option Bool :=
  (matchglobR filename pattern).1

/-- Number of loop-body executions performed by a `matchglob` call. -/
def matchglobIters (filename pattern : String) : Nat :=
  (matchglobR filename pattern).2

/-- The loop outcome when the pattern deque holds `pp` and the path deque
holds `fp` (with the fuel `matchglob` itself uses). -/
def runLoop (pp fp : List String) : Option Bool :=
  (loopGo pp.length pp fp).1

/-! ## Helper lemmas -/

theorem mem_purePathParts_ne_empty {s x : String} (hx : x ∈ purePathParts s) : x ≠ "" := by
  simp only [purePathParts] at hx
  intro hempty
  subst hempty
  have hfilter : ¬ ("" ∈ (splitSlashGo [] s.data).filter (fun c => !(c == "" || c == "."))) := by
    intro hm
    have := (List.mem_filter.mp hm).2
    simp at this
  split at hx
  · rcases List.mem_cons.mp hx with h | h
    · exact absurd h (by decide)
    · exact hfilter h
  · split at hx
    · rcases List.mem_cons.mp hx with h | h
      · exact absurd h (by decide)
      · exact hfilter h
    · exact hfilter hx

theorem matchglobR_eq_loopGo (filename pattern : String)
    (h : purePathParts pattern ≠ []) :
    matchglobR filename pattern =
      loopGo (purePathParts pattern).length (purePathParts pattern) (purePathParts filename) := by
  have hlast : (purePathParts pattern).getLast h ≠ "" :=
    mem_purePathParts_ne_empty (List.getLast_mem h)
  simp only [matchglobR]
  rw [List.getLast?_eq_getLast _ h]
  simp [hlast]

theorem collapseC_some {l : List String} {q : String} {rest : List String}
    (h : (collapseC l).1 = some (q, rest)) :
    (collapseC l).2 + rest.length = l.length := by
  induction l with
  | nil => simp [collapseC] at h
  | cons a as ih =>
    by_cases ha : a = "**"
    · simp [collapseC, ha] at h ⊢
      have := ih h
      omega
    · simp only [collapseC, if_neg ha] at h ⊢
      have h2 := Option.some.inj h
      cases h2
      simp only [List.length_cons]
      omega

theorem collapseC_none {l : List String} (h : (collapseC l).1 = none) :
    (collapseC l).2 = l.length + 1 := by
  induction l with
  | nil => simp [collapseC]
  | cons a as ih =>
    by_cases ha : a = "**"
    · simp [collapseC, ha] at h ⊢
      have := ih h
      omega
    · simp [collapseC, if_neg ha] at h

theorem skipC_some {q : String} {l rest : List String}
    (h : (skipC q l).1 = some rest) :
    (skipC q l).2 + rest.length = l.length := by
  induction l with
  | nil => simp [skipC] at h
  | cons a as ih =>
    by_cases ha : fnmatchcase a q = true
    · simp only [skipC, if_pos ha] at h ⊢
      have h2 := Option.some.inj h
      cases h2
      simp only [List.length_cons]
      omega
    · simp only [skipC, if_neg ha] at h ⊢
      have := ih h
      simp only [List.length_cons]
      omega

theorem skipC_none {q : String} {l : List String}
    (h : (skipC q l).1 = none) :
    (skipC q l).2 = l.length + 1 := by
  induction l with
  | nil => simp [skipC]
  | cons a as ih =>
    by_cases ha : fnmatchcase a q = true
    · simp [skipC, if_pos ha] at h
    · simp only [skipC, if_neg ha] at h ⊢
      have := ih h
      simp only [List.length_cons]
      omega

theorem loopGo_nil (fuel : Nat) (fp : List String) :
    loopGo fuel [] fp = if fp.isEmpty then (some true, 1) else (none, 1) := by
  cases fuel <;> rfl

theorem loopGo_count_le (fuel : Nat) :
    ∀ (pp fp : List String), pp ≠ [] → (loopGo fuel pp fp).2 ≤ pp.length + fp.length := by
  induction fuel with
  | zero =>
    intro pp fp hpp
    cases pp with
    | nil => exact absurd rfl hpp
    | cons p pp' => simp [loopGo]
  | succ fuel ih =>
    have hq : ∀ (pp2 fp2 : List String), (loopGo fuel pp2 fp2).2 ≤ pp2.length + fp2.length + 1 := by
      intro pp2 fp2
      cases pp2 with
      | nil =>
        rw [loopGo_nil]
        split <;> simp
      | cons x xs =>
        have := ih (x :: xs) fp2 (by simp)
        omega
    intro pp fp hpp
    cases pp with
    | nil => exact absurd rfl hpp
    | cons p pp' =>
      cases fp with
      | nil => by_cases hp : p = "**" <;> simp [loopGo, hp] <;> omega
      | cons f fp1 =>
        by_cases hp : p = "**"
        · cases hguard : (pp'.isEmpty || fp1.isEmpty) with
          | true => simp [loopGo, hp, hguard] <;> omega
          | false =>
            cases hcol : (collapseC pp').1 with
            | none =>
              have hc := collapseC_none hcol
              simp [loopGo, hp, hguard, hcol, hc] <;> omega
            | some qpp2 =>
              obtain ⟨q, pp2⟩ := qpp2
              have hc := collapseC_some hcol
              by_cases hfm : fnmatchcase f q = true
              · have hr := hq pp2 fp1
                simp [loopGo, hp, hguard, hcol, hfm] <;> omega
              · cases hskip : (skipC q fp1).1 with
                | none =>
                  have hs := skipC_none hskip
                  simp [loopGo, hp, hguard, hcol, hfm, hskip, hs] <;> omega
                | some fp2 =>
                  have hs := skipC_some hskip
                  have hr := hq pp2 fp2
                  simp [loopGo, hp, hguard, hcol, hfm, hskip] <;> omega
        · by_cases hfm : fnmatchcase f p = true
          · have hr := hq pp' fp1
            simp [loopGo, hp, hfm] <;> omega
          · simp [loopGo, hp, hfm] <;> omega

theorem loopGo_noStars_iff (pp : List String) :
    ∀ (fuel : Nat) (fp : List String), pp.length ≤ fuel → "**" ∉ pp →
      ((loopGo fuel pp fp).1 = some true ↔
        List.Forall₂ (fun f p => fnmatchcase f p = true) fp pp) := by
  induction pp with
  | nil =>
    intro fuel fp _ _
    rw [loopGo_nil]
    cases fp with
    | nil => simp
    | cons f fp1 => simp [List.forall₂_nil_right_iff]
  | cons p pp' ih =>
    intro fuel fp hfuel hmem
    have hp : p ≠ "**" := by
      intro h
      exact hmem (h ▸ List.mem_cons_self p pp')
    have hmem' : "**" ∉ pp' := fun h => hmem (List.mem_cons_of_mem _ h)
    cases fuel with
    | zero => simp at hfuel
    | succ fuel =>
      have hfuel' : pp'.length ≤ fuel := by
        simp at hfuel
        omega
      cases fp with
      | nil => simp [loopGo, hp, List.forall₂_nil_left_iff]
      | cons f fp1 =>
        by_cases hfm : fnmatchcase f p = true
        · simp [loopGo, hp, hfm, List.forall₂_cons, ih fuel fp1 hfuel' hmem']
        · simp [loopGo, hp, hfm, List.forall₂_cons]

theorem transGo_litOnly (cs : List Char) :
    ∀ (fuel : Nat), cs.length ≤ fuel → litOnly cs → transGo fuel cs = cs.map Tok.lit := by
  induction cs with
  | nil =>
    intro fuel _ _
    cases fuel <;> rfl
  | cons c cs' ih =>
    intro fuel hfuel hlit
    obtain ⟨hc1, hc2, hc3⟩ := hlit c (List.mem_cons_self c cs')
    have hlit' : litOnly cs' := fun x hx => hlit x (List.mem_cons_of_mem _ hx)
    cases fuel with
    | zero => simp at hfuel
    | succ fuel =>
      have hle : cs'.length ≤ fuel := by
        simp at hfuel
        omega
      simp [transGo, hc1, hc2, hc3, ih fuel hle hlit']

theorem tokGo_lits (t : List Char) :
    ∀ (s : List Char) (fuel : Nat), s.length + t.length ≤ fuel →
      (tokGo fuel s (t.map Tok.lit) = true ↔ s = t) := by
  induction t with
  | nil =>
    intro s fuel hfuel
    cases s with
    | nil => cases fuel <;> simp [tokGo]
    | cons c cs =>
      cases fuel with
      | zero => simp at hfuel
      | succ fuel => simp [tokGo]
  | cons a ts ih =>
    intro s fuel hfuel
    cases fuel with
    | zero => simp at hfuel
    | succ fuel =>
      cases s with
      | nil => simp [tokGo]
      | cons c cs =>
        by_cases hca : c = a
        · subst hca
          have hle : cs.length + ts.length ≤ fuel := by
            simp at hfuel
            omega
          simp [tokGo, ih cs fuel hle]
        · simp [tokGo, hca]

theorem fnmatchcase_lit_iff (s t : String) (h : litOnly t.data) :
    (fnmatchcase s t = true ↔ s = t) := by
  have htr : translateP t.data = t.data.map Tok.lit :=
    transGo_litOnly t.data t.data.length le_rfl h
  simp only [fnmatchcase, htr]
  rw [tokGo_lits t.data s.data (s.data.length + (t.data.map Tok.lit).length) (by simp)]
  constructor
  · intro h2
    exact String.ext h2
  · intro h2
    rw [h2]

theorem fnmatchcase_self (s : String) (h : litOnly s.data) : fnmatchcase s s = true :=
  (fnmatchcase_lit_iff s s h).mpr rfl

theorem loopGo_self_lit (pp : List String) :
    ∀ (fuel : Nat), pp.length ≤ fuel → (∀ s ∈ pp, litOnly s.data) →
      (loopGo fuel pp pp).1 = some true := by
  induction pp with
  | nil =>
    intro fuel _ _
    rw [loopGo_nil]
    rfl
  | cons p pp' ih =>
    intro fuel hfuel hlit
    have hp : p ≠ "**" := by
      intro h
      have hl := hlit p (List.mem_cons_self p pp')
      rw [h] at hl
      exact (hl '*' (by decide)).1 rfl
    have hself := fnmatchcase_self p (hlit p (List.mem_cons_self p pp'))
    cases fuel with
    | zero => simp at hfuel
    | succ fuel =>
      have hfuel' : pp'.length ≤ fuel := by
        simp at hfuel
        omega
      have hlit' : ∀ s ∈ pp', litOnly s.data := fun s hs => hlit s (List.mem_cons_of_mem _ hs)
      simp [loopGo, hp, hself, ih fuel hfuel' hlit']

/-! ## Claims -/

/-- C1: the spec says that a call whose path segments are exhausted while the
next pattern segment to consume is not `**` returns false rather than
raising.  The code instead raises `IndexError` (`popleft` on the empty path
deque at line 899, modelled as `none`): a path that is a proper prefix of
the pattern's segments, and the empty path against a non-`**` pattern, both
raise instead of returning false. -/
theorem matchglob_exhausted_path_raises :
    matchglob "a" "a/b" = none ∧ matchglob "" "a" = none := by
  constructor <;> decide

/-- C2 counterexample: contrary to the claim, `matchglob "a/b" "a/**/c"`
does not return false. -/
theorem matchglob_doublestar_dropped_tail_counterexample :
    matchglob "a/b" "a/**/c" ≠ some false := by decide

/-- C2 amended: `matchglob "a/b" "a/**/c"` returns true: when the `**`
segment consumes the last path segment, the check
`if not pattern_parts or not filename_parts: return True` (line 902)
succeeds immediately, never requiring the pattern's remaining literal
`c`. -/
theorem matchglob_doublestar_dropped_tail :
    matchglob "a/b" "a/**/c" = some true := by decide

/-- C3: the totality claim fails: `matchglob` raises `IndexError` (modelled
as `none`) on well-formed string inputs, for example a path one segment
shorter than the pattern. -/
theorem matchglob_not_total : matchglob "x/y" "x/y/z" = none := by decide

/-- C4: multiple adjacent `**` segments do not behave like a single `**`:
with the run at the end of the pattern and two remaining path segments,
`matchglob "a/b" "**"` returns true while `matchglob "a/b" "**/**"` raises
`IndexError` (the collapse loop at lines 905-906 pops the emptied pattern
deque; modelled as `none`). -/
theorem matchglob_adjacent_doublestar_differs :
    matchglob "a/b" "**" = some true ∧ matchglob "a/b" "**/**" = none := by
  constructor <;> decide

/-- C5: an empty pattern does not fail closed: for every path, the call
raises `IndexError` at `pattern_parts[-1]` (line 887) because
`PurePath("")` has no parts; modelled as `none` for every filename. -/
theorem matchglob_empty_pattern_raises (p : String) : matchglob p "" = none := rfl

/-- C6: matching is segment-by-segment and never crosses segment
boundaries: `a/*/c` matches `a/b/c` but not `a/b/x/c`, and in general a
pattern without `**` segments matches a path exactly when the two have the
same number of segments and each path segment matches the corresponding
pattern segment with `fnmatchcase` — so a single non-`**` pattern segment
(including one containing `*`) never matches more than one path segment. -/
theorem matchglob_segmentwise :
    matchglob "a/b/c" "a/*/c" = some true ∧
    matchglob "a/b/x/c" "a/*/c" = some false ∧
    ∀ path pattern : String,
      purePathParts pattern ≠ [] → "**" ∉ purePathParts pattern →
      (matchglob path pattern = some true ↔
        List.Forall₂ (fun f p => fnmatchcase f p = true)
          (purePathParts path) (purePathParts pattern)) := by
  refine ⟨by decide, by decide, ?_⟩
  intro path pattern hne hmem
  unfold matchglob
  rw [matchglobR_eq_loopGo path pattern hne]
  exact loopGo_noStars_iff (purePathParts pattern) _ (purePathParts path) le_rfl hmem

/-- Witness for C6 at concrete inputs. -/
theorem matchglob_segmentwise_witness :
    matchglob "a" "a" = some true ↔
      List.Forall₂ (fun f p => fnmatchcase f p = true)
        (purePathParts "a") (purePathParts "a") :=
  matchglob_segmentwise.2.2 "a" "a" (by decide) (by decide)

/-- C7: identity case: any path whose parsed segment list is non-empty and
whose segments contain none of `*`, `?`, `[` matches itself used verbatim
as the pattern. -/
theorem matchglob_literal_identity (p : String)
    (hne : purePathParts p ≠ [])
    (hlit : ∀ s ∈ purePathParts p, litOnly s.data) :
    matchglob p p = some true := by
  unfold matchglob
  rw [matchglobR_eq_loopGo p p hne]
  exact loopGo_self_lit (purePathParts p) _ le_rfl hlit

/-- Witness for C7 at `a/b/c`. -/
theorem matchglob_literal_identity_witness : matchglob "a/b/c" "a/b/c" = some true :=
  matchglob_literal_identity "a/b/c" (by decide) (by decide)

/-- C8: segment comparison is case-sensitive: `matchglob "A/b" "a/b"` is
false, and a literal pattern segment (no `*`, `?`, `[`) matches only the
identical segment, so two literal segments that differ (in particular two
differing only in letter case) never match. -/
theorem matchglob_case_sensitive :
    matchglob "A/b" "a/b" = some false ∧
    ∀ s t : String, litOnly t.data → s ≠ t → fnmatchcase s t = false := by
  refine ⟨by decide, ?_⟩
  intro s t hlit hne
  cases hfm : fnmatchcase s t
  · rfl
  · exact absurd ((fnmatchcase_lit_iff s t hlit).mp hfm) hne

/-- Witness for C8 at segments `A` and `a`. -/
theorem matchglob_case_sensitive_witness : fnmatchcase "A" "a" = false :=
  matchglob_case_sensitive.2 "A" "a" (by decide) (by decide)

/-- C9: every `matchglob` call terminates, and the number of loop-body
executions it performs (outer `while True` iterations plus inner `while`
iterations, the second component of the model) is at most the number of
path segments plus the number of pattern segments. -/
theorem matchglob_iteration_bound (filename pattern : String) :
    matchglobIters filename pattern ≤
      (purePathParts filename).length + (purePathParts pattern).length := by
  by_cases hne : purePathParts pattern = []
  · simp [matchglobIters, matchglobR, hne]
  · unfold matchglobIters
    rw [matchglobR_eq_loopGo filename pattern hne]
    have hb := loopGo_count_le (purePathParts pattern).length
      (purePathParts pattern) (purePathParts filename) hne
    omega

/-- C10: the result of `matchglob` depends only on the pathlib-parsed
segment sequences of its arguments, and parsing collapses redundant
separators and `.` components, so inserting them (e.g. `a//b` or `./a/b`
for `a/b`) into the path or the pattern leaves the result unchanged. -/
theorem matchglob_depends_only_on_parts :
    (∀ s₁ t₁ s₂ t₂ : String,
      purePathParts s₁ = purePathParts s₂ → purePathParts t₁ = purePathParts t₂ →
      matchglob s₁ t₁ = matchglob s₂ t₂) ∧
    purePathParts "a//b" = purePathParts "a/b" ∧
    purePathParts "./a/b" = purePathParts "a/b" := by
  refine ⟨?_, by decide, by decide⟩
  intro s₁ t₁ s₂ t₂ h₁ h₂
  unfold matchglob matchglobR
  rw [h₁, h₂]

/-- Witness for C10: a redundant separator in the path leaves the result
unchanged. -/
theorem matchglob_depends_only_on_parts_witness :
    matchglob "a//b" "a/b" = matchglob "a/b" "a/b" :=
  matchglob_depends_only_on_parts.1 "a//b" "a/b" "a/b" "a/b" (by decide) (by decide)
